import Mathlib

/-!
A shallow embedding of the extended CKY recogniser in `src/cky.py`.

Modelling conventions, read against the Python source:

* Python symbols are either plain strings (terminals / words) or nltk
  `Nonterminal` objects; we mirror the two cases in the sum type `Symbol`.
* `buildIndices` fills two `defaultdict(list)` maps from child symbols to
  parent lists.  Keys are only ever created by appending a parent, so a key
  is present exactly when its parent list is nonempty; we therefore embed
  each map as a total function returning a list, and translate the Python
  membership test `k in d` as `d k ≠ []`.
* The chart `self.matrix` is written only through `Cell.addLabel`; we embed
  it as a total function from `(row, column)` pairs to label lists, writing
  through `updateChart`.
* `Cell.unaryUpdate` recurses without any bound, so a deep (or cyclic)
  unary chain exhausts the recursion limit of the Python interpreter; we model
  the call depth with an explicit fuel argument, `CKYErr.recursionLimit`
  standing for the `RecursionError` raised when it runs out.
* Reading `self.matrix[0]` when the matrix has no rows raises `IndexError`
  in Python; `CKYErr.indexError` stands for that, and `CKYErr.assertionError`
  for the `assert` in `buildIndices`.
-/

namespace Cky

/-- A grammar symbol: a terminal (a Python string) or a nonterminal
(an nltk `Nonterminal`).  The two are never equal to each other. -/
inductive Symbol where
  | term (s : String)
  | nt (s : String)
deriving DecidableEq

/-- One production of the grammar: a left-hand symbol and the right-hand
sequence of symbols (as in `nltk.grammar.Production`). -/
structure Production where
  lhs : Symbol
  rhs : List Symbol
deriving DecidableEq

/-- The grammar handed to the `CKY` constructor: a designated start symbol
and a production list. -/
structure Grammar where
  start : Symbol
  productions : List Production
deriving DecidableEq

/-- The exceptions the embedded code can raise: the `assert` failure in
`buildIndices`, the Python `RecursionError` from unbounded `unaryUpdate`
recursion, and the `IndexError` from reading a row that does not exist. -/
inductive CKYErr where
  | assertionError
  | recursionLimit
  | indexError
deriving DecidableEq

/-- The value `CKY.recognise` returns on a normal path: Python `False`,
or the integer `len(self.matrix[0][self.n-1].labels())`. -/
inductive RecResult where
  | notDerivable
  | derivable (score : Nat)
deriving DecidableEq

/-- The unary half of `CKY.buildIndices`: for each production whose
right-hand side is the single symbol `c`, the left-hand symbol is appended
to `unary[c]`, in production-list order. -/
def buildUnary : List Production → Symbol → List Symbol
  | [], _ => []
  | p :: ps, c =>
    if p.rhs = [c] then p.lhs :: buildUnary ps c else buildUnary ps c

/-- The binary half of `CKY.buildIndices`: for each production whose
right-hand side is the pair `(k.1, k.2)`, the left-hand symbol is appended
to `binary[(k.1, k.2)]`, in production-list order. -/
def buildBinary : List Production → Symbol × Symbol → List Symbol
  | [], _ => []
  | p :: ps, k =>
    if p.rhs = [k.1, k.2] then p.lhs :: buildBinary ps k else buildBinary ps k

/-- The `assert(len(rhs)>0 and len(rhs)<=2)` check that `buildIndices` runs
on every production, in order, stopping at the first offender. -/
def assertRhsLens : List Production → Except CKYErr Unit
  | [] => .ok ()
  | p :: ps =>
    if 0 < p.rhs.length ∧ p.rhs.length ≤ 2 then assertRhsLens ps
    else .error .assertionError

/-- A constructed `CKY` processor: the grammar together with the two rule
indices built by `buildIndices`. -/
structure CKY where
  grammar : Grammar
  unary : Symbol → List Symbol
  binary : Symbol × Symbol → List Symbol

/-- The `CKY.__init__` constructor: run `buildIndices` (whose `assert` can
raise) and store the two indices. -/
def mkCKY (g : Grammar) : Except CKYErr CKY :=
  match assertRhsLens g.productions with
  | .error e => .error e
  | .ok _ =>
      .ok ⟨g, buildUnary g.productions, buildBinary g.productions⟩

/-- The body of `Cell.addLabel`: append the label unless it is already
among the labels of the cell. -/
def addLabel (labels : List Symbol) (label : Symbol) : List Symbol :=
  if label ∈ labels then labels else labels ++ [label]

/-- The `for parent in ...` loop shape shared by `Cell.unaryUpdate` and the
inner loop of `CKY.maybeBuild`: for each symbol of `ps` in order, add it to
the labels of the cell and then run `step` (a `unaryUpdate` call) on it,
threading the label list of the cell through. -/
def runLoop (step : List Symbol → Symbol → Except CKYErr (List Symbol)) :
    List Symbol → List Symbol → Except CKYErr (List Symbol)
  | [], labels => .ok labels
  | p :: ps, labels =>
    match step (addLabel labels p) p with
    | .error e => .error e
    | .ok labels2 => runLoop step ps labels2

/-- The body of `Cell.unaryUpdate symbol`: for each `parent` in
`unary[symbol]` (none when the key is absent), `addLabel parent` and
recurse on `parent`.  `fuel` bounds the recursion depth; Python raises
`RecursionError` when its interpreter limit is exceeded, modelled by
`fuel = 0`. -/
def unaryUpdate (u : Symbol → List Symbol) :
    Nat → List Symbol → Symbol → Except CKYErr (List Symbol)
  | 0, _, _ => .error .recursionLimit
  | Nat.succ fuel, labels, symbol => runLoop (unaryUpdate u fuel) (u symbol) labels

/-- The chart `self.matrix`, read at `(row, column)`.  Python stores `None`
fillers at `column ≤ row` and never reads them during the fill, so a total
function into label lists is faithful. -/
def Chart : Type := Nat × Nat → List Symbol

/-- The fresh chart built at the start of `recognise`: every cell holds an empty
label list. -/
def emptyChart : Chart := fun _ => []

/-- Writing the label list of one cell back into the chart. -/
def updateChart (ch : Chart) (pos : Nat × Nat) (labels : List Symbol) : Chart :=
  fun q => if q = pos then labels else ch q

/-- The loop of `CKY.unaryFill`, at row `r` with the remaining words:
`cell.addLabel(word)` then `cell.unaryUpdate(word)` on cell `(r, r+1)`. -/
def unaryFillAux (u : Symbol → List Symbol) (fuel : Nat) :
    List Symbol → Nat → Chart → Except CKYErr Chart
  | [], _, ch => .ok ch
  | w :: ws, r, ch =>
    match unaryUpdate u fuel (addLabel (ch (r, r + 1)) w) w with
    | .error e => .error e
    | .ok labels => unaryFillAux u fuel ws (r + 1) (updateChart ch (r, r + 1) labels)

/-- `CKY.unaryFill`: fill the diagonal cells `(r, r+1)` for
`r in range(n-1)`, i.e. one per word. -/
def unaryFill (u : Symbol → List Symbol) (fuel : Nat) (words : List Symbol)
    (ch : Chart) : Except CKYErr Chart :=
  unaryFillAux u fuel words 0 ch

/-- The innermost body of `CKY.maybeBuild` for a fixed pair `(s1, s2)`:
`if (s1,s2) in self.binary` (key present iff its parent list is nonempty),
then for each parent in order, `cell.addLabel` it and `cell.unaryUpdate`
it. -/
def buildPair (b : Symbol × Symbol → List Symbol) (u : Symbol → List Symbol)
    (fuel : Nat) (s1 s2 : Symbol) (labels : List Symbol) :
    Except CKYErr (List Symbol) :=
  if b (s1, s2) = [] then .ok labels
  else runLoop (unaryUpdate u fuel) (b (s1, s2)) labels

/-- The `for s2 in self.matrix[mid][end].labels()` loop of `maybeBuild`,
for a fixed `s1`, threading the labels of the target cell. -/
def buildS2 (b : Symbol × Symbol → List Symbol) (u : Symbol → List Symbol)
    (fuel : Nat) (s1 : Symbol) :
    List Symbol → List Symbol → Except CKYErr (List Symbol)
  | [], labels => .ok labels
  | s2 :: rest, labels =>
    match buildPair b u fuel s1 s2 labels with
    | .error e => .error e
    | .ok labels2 => buildS2 b u fuel s1 rest labels2

/-- The `for s1 in self.matrix[start][mid].labels()` loop of `maybeBuild`,
with `ls2` the snapshot of `self.matrix[mid][end].labels()`. -/
def buildS1 (b : Symbol × Symbol → List Symbol) (u : Symbol → List Symbol)
    (fuel : Nat) (ls2 : List Symbol) :
    List Symbol → List Symbol → Except CKYErr (List Symbol)
  | [], labels => .ok labels
  | s1 :: rest, labels =>
    match buildS2 b u fuel s1 ls2 labels with
    | .error e => .error e
    | .ok labels2 => buildS1 b u fuel ls2 rest labels2

/-- `CKY.maybeBuild start mid stop`: combine the labels of cells
`(start, mid)` and `(mid, stop)` through the binary index into cell
`(start, stop)`.  The two source cells are distinct from the target cell
(`start < mid < stop`), so their label lists are fixed snapshots while the
target cell grows. -/
def maybeBuild (b : Symbol × Symbol → List Symbol) (u : Symbol → List Symbol)
    (fuel : Nat) (start mid stop : Nat) (ch : Chart) : Except CKYErr Chart :=
  match buildS1 b u fuel (ch (mid, stop)) (ch (start, mid)) (ch (start, stop)) with
  | .error e => .error e
  | .ok labels => .ok (updateChart ch (start, stop) labels)

/-- A Python `for i in range(lo, lo+count)` loop threading the chart:
`foldRangeM f lo count` applies `f` at `lo, lo+1, ..., lo+count-1`. -/
def foldRangeM (f : Nat → Chart → Except CKYErr Chart) :
    Nat → Nat → Chart → Except CKYErr Chart
  | _, 0, ch => .ok ch
  | i, Nat.succ k, ch =>
    match f i ch with
    | .error e => .error e
    | .ok ch2 => foldRangeM f (i + 1) k ch2

/-- `CKY.binaryScan`: `for span in range(2, n)`, `for start in
range(n - span)`, `end = start + span`, `for mid in range(start+1, end)`,
`maybeBuild start mid end`. -/
def binaryScan (b : Symbol × Symbol → List Symbol) (u : Symbol → List Symbol)
    (fuel : Nat) (n : Nat) (ch : Chart) : Except CKYErr Chart :=
  foldRangeM
    (fun span ch1 =>
      foldRangeM
        (fun start ch2 =>
          foldRangeM
            (fun mid ch3 => maybeBuild b u fuel start mid (start + span) ch3)
            (start + 1) (span - 1) ch2)
        0 (n - span) ch1)
    2 (n - 2) ch

/-- The chart-filling part of `CKY.recognise`: a fresh chart, then
`unaryFill`, then `binaryScan`, with `n = len(tokens) + 1`. -/
def ckyChart (c : CKY) (fuel : Nat) (tokens : List Symbol) :
    Except CKYErr Chart :=
  match unaryFill c.unary fuel tokens emptyChart with
  | .error e => .error e
  | .ok ch => binaryScan c.binary c.unary fuel (tokens.length + 1) ch

/-- `CKY.recognise tokens`: fill the chart, then read
`self.matrix[0][self.n-1].labels()`.  The matrix has `n - 1` rows, so when
`n - 1 = 0` (an empty token list) the read `self.matrix[0]` raises
`IndexError`.  Otherwise return Python `False` when the start symbol is
absent from the full-span cell, and the label count of the cell when it is
present. -/
def recognise (c : CKY) (fuel : Nat) (tokens : List Symbol) :
    Except CKYErr RecResult :=
  let n : Nat := tokens.length + 1
  match ckyChart c fuel tokens with
  | .error e => .error e
  | .ok ch =>
    if n - 1 = 0 then .error .indexError
    else if c.grammar.start ∈ ch (0, n - 1) then
      .ok (.derivable (ch (0, n - 1)).length)
    else .ok .notDerivable

/-! ### Derived notions used by the statements

`ClosedAt u L x` says all unary parents of `x` are already in `L`;
`ClosedList u L` says `L` is closed under the unary index, and the
`Chart` versions say it of every cell. -/

def ClosedAt (u : Symbol → List Symbol) (L : List Symbol) (x : Symbol) : Prop :=
  ∀ p ∈ u x, p ∈ L

def ClosedList (u : Symbol → List Symbol) (L : List Symbol) : Prop :=
  ∀ x ∈ L, ClosedAt u L x

def ChartClosed (u : Symbol → List Symbol) (ch : Chart) : Prop :=
  ∀ q, ClosedList u (ch q)

def ChartNodup (ch : Chart) : Prop :=
  ∀ q, (ch q).Nodup

/-- Python `range(lo, lo + k)`. -/
def natRange : Nat → Nat → List Nat
  | _, 0 => []
  | lo, Nat.succ k => lo :: natRange (lo + 1) k

/-- The `(start, mid, end)` visit schedule of `binaryScan`, written from
the specification: spans 2 to `n-1` inclusive in increasing order, for
each span every start with `end = start + span ≤ n - 1`, and every mid
strictly between start and end. -/
def schedule (n : Nat) : List (Nat × Nat × Nat) :=
  (natRange 2 (n - 2)).flatMap fun span =>
    (natRange 0 (n - span)).flatMap fun start =>
      (natRange (start + 1) (span - 1)).map fun mid => (start, mid, start + span)

/-- Folding `maybeBuild` over an explicit triple list. -/
def foldTriples (b : Symbol × Symbol → List Symbol) (u : Symbol → List Symbol)
    (fuel : Nat) : List (Nat × Nat × Nat) → Chart → Except CKYErr Chart
  | [], ch => .ok ch
  | t :: ts, ch =>
    match maybeBuild b u fuel t.1 t.2.1 t.2.2 ch with
    | .error e => .error e
    | .ok ch2 => foldTriples b u fuel ts ch2

/-- Folding a chart transformer over an explicit list of loop indices. -/
def foldNatsM (f : Nat → Chart → Except CKYErr Chart) :
    List Nat → Chart → Except CKYErr Chart
  | [], ch => .ok ch
  | i :: is, ch =>
    match f i ch with
    | .error e => .error e
    | .ok ch2 => foldNatsM f is ch2

/-! ### Concrete data for the closed witness statements -/

/-- A small grammar: `S -> A B`, `A -> "a"`, `B -> "b"`. -/
def exGrammar : Grammar :=
  ⟨.nt "S", [⟨.nt "S", [.nt "A", .nt "B"]⟩,
             ⟨.nt "A", [.term "a"]⟩,
             ⟨.nt "B", [.term "b"]⟩]⟩

/-- The recogniser built from `exGrammar`. -/
def exCKY : CKY :=
  ⟨exGrammar, buildUnary exGrammar.productions, buildBinary exGrammar.productions⟩

/-- The chart `recognise exCKY 3 [a, b]` fills. -/
def exChart : Chart :=
  updateChart
    (updateChart
      (updateChart emptyChart (0, 1) [.term "a", .nt "A"])
      (1, 2) [.term "b", .nt "B"])
    (0, 2) [.nt "S"]

/-- The chart after the diagonal fill of `recognise exCKY 3 [a, b]`,
before the binary scan. -/
def exDiagChart : Chart :=
  updateChart
    (updateChart emptyChart (0, 1) [.term "a", .nt "A"])
    (1, 2) [.term "b", .nt "B"]

/-- A grammar whose only productions form the unary cycle
`X -> Y`, `Y -> X`. -/
def cycGrammar : Grammar :=
  ⟨.nt "X", [⟨.nt "X", [.nt "Y"]⟩, ⟨.nt "Y", [.nt "X"]⟩]⟩

/-- The unary index of the cyclic grammar: `unary[Y] = [X]` and
`unary[X] = [Y]`. -/
def cycUnary : Symbol → List Symbol :=
  buildUnary cycGrammar.productions

/-- A grammar with an over-long right-hand side, rejected by the
`buildIndices` assertion. -/
def badGrammar : Grammar :=
  ⟨.nt "S", [⟨.nt "S", [.nt "A", .nt "B", .nt "A"]⟩]⟩

/-! ### Basic facts about `addLabel` -/

theorem mem_addLabel {L : List Symbol} {s x : Symbol} :
    x ∈ addLabel L s ↔ x ∈ L ∨ x = s := by
  unfold addLabel
  split
  · exact ⟨Or.inl, fun h => h.elim id (fun hx => hx ▸ ‹s ∈ L›)⟩
  · simp [List.mem_append]

theorem subset_addLabel (L : List Symbol) (s : Symbol) : L ⊆ addLabel L s :=
  fun _ hx => mem_addLabel.mpr (Or.inl hx)

theorem self_mem_addLabel (L : List Symbol) (s : Symbol) : s ∈ addLabel L s :=
  mem_addLabel.mpr (Or.inr rfl)

theorem addLabel_of_mem {L : List Symbol} {s : Symbol} (h : s ∈ L) :
    addLabel L s = L := by
  unfold addLabel
  exact if_pos h

theorem addLabel_of_not_mem {L : List Symbol} {s : Symbol} (h : s ∉ L) :
    addLabel L s = L ++ [s] := by
  unfold addLabel
  exact if_neg h

theorem addLabel_nodup {L : List Symbol} {s : Symbol} (h : L.Nodup) :
    (addLabel L s).Nodup := by
  unfold addLabel
  split
  · exact h
  · simpa [List.nodup_append] using ⟨h, ‹s ∉ L›⟩

/-! ### Monotonicity: the label list of a cell only ever grows -/

theorem runLoop_mono {step : List Symbol → Symbol → Except CKYErr (List Symbol)}
    (hstep : ∀ L s out, step L s = .ok out → L ⊆ out) :
    ∀ ps L out, runLoop step ps L = .ok out → L ⊆ out ∧ ∀ p ∈ ps, p ∈ out := by
  intro ps
  induction ps with
  | nil =>
      intro L out h
      cases h
      exact ⟨fun _ hx => hx, by simp⟩
  | cons p ps ih =>
      intro L out h
      unfold runLoop at h
      cases hs : step (addLabel L p) p with
      | error e => rw [hs] at h; cases h
      | ok L2 =>
          rw [hs] at h
          obtain ⟨h1, h2⟩ := ih L2 out h
          have hsub : addLabel L p ⊆ L2 := hstep _ _ _ hs
          refine ⟨fun x hx => h1 (hsub (subset_addLabel L p hx)), ?_⟩
          intro q hq
          rcases List.mem_cons.mp hq with rfl | hq'
          · exact h1 (hsub (self_mem_addLabel L q))
          · exact h2 q hq'

theorem unaryUpdate_mono {u : Symbol → List Symbol} :
    ∀ fuel L s out, unaryUpdate u fuel L s = .ok out → L ⊆ out := by
  intro fuel
  induction fuel with
  | zero => intro L s out h; cases h
  | succ f ih =>
      intro L s out h
      exact (runLoop_mono (fun L' s' out' h' => ih L' s' out' h') (u s) L out h).1

theorem unaryUpdate_parents_mem {u : Symbol → List Symbol} {fuel : Nat}
    {L : List Symbol} {s : Symbol} {out : List Symbol}
    (h : unaryUpdate u fuel L s = .ok out) : ∀ p ∈ u s, p ∈ out := by
  cases fuel with
  | zero => cases h
  | succ f =>
      exact (runLoop_mono (fun L' s' out' h' => unaryUpdate_mono f L' s' out' h')
        (u s) L out h).2

/-! ### Unary closedness -/

theorem ClosedAt.mono {u : Symbol → List Symbol} {L L' : List Symbol} {x : Symbol}
    (h : ClosedAt u L x) (hsub : L ⊆ L') : ClosedAt u L' x :=
  fun p hp => hsub (h p hp)

/-- The closure invariant carried through one `for parent in ...` loop.
`S` collects the symbols whose own closure is still pending in an
enclosing call; every element of the list of the loop gets added and closed. -/
theorem runLoop_closed {u : Symbol → List Symbol}
    {step : List Symbol → Symbol → Except CKYErr (List Symbol)}
    (hmono : ∀ L s out, step L s = .ok out → L ⊆ out)
    (hstep : ∀ (S : Symbol → Prop) L s out, step L s = .ok out →
      (∀ x ∈ L, ClosedAt u L x ∨ S x ∨ x = s) →
      (∀ p ∈ u s, p ∈ out) ∧ (∀ x ∈ out, ClosedAt u out x ∨ S x)) :
    ∀ ps (S : Symbol → Prop) L out, runLoop step ps L = .ok out →
      (∀ x ∈ L, ClosedAt u L x ∨ S x) →
      (∀ p ∈ ps, p ∈ out) ∧ (∀ x ∈ out, ClosedAt u out x ∨ S x) := by
  intro ps
  induction ps with
  | nil =>
      intro S L out h hL
      cases h
      exact ⟨by simp, hL⟩
  | cons p ps ih =>
      intro S L out h hL
      unfold runLoop at h
      cases hs : step (addLabel L p) p with
      | error e => rw [hs] at h; cases h
      | ok L2 =>
          rw [hs] at h
          have hpre : ∀ x ∈ addLabel L p, ClosedAt u (addLabel L p) x ∨ S x ∨ x = p := by
            intro x hx
            rcases mem_addLabel.mp hx with hx' | rfl
            · rcases hL x hx' with hc | hS
              · exact Or.inl (hc.mono (subset_addLabel L p))
              · exact Or.inr (Or.inl hS)
            · exact Or.inr (Or.inr rfl)
          obtain ⟨hup, hL2⟩ := hstep S (addLabel L p) p L2 hs hpre
          obtain ⟨hps, hout⟩ := ih S L2 out h hL2
          have hL2out : L2 ⊆ out := (runLoop_mono hmono ps L2 out h).1
          refine ⟨?_, hout⟩
          intro q hq
          rcases List.mem_cons.mp hq with rfl | hq'
          · exact hL2out (hmono _ _ _ hs (self_mem_addLabel L q))
          · exact hps q hq'

/-- The closure invariant for one `unaryUpdate` call: with the pending
symbols `S` of enclosing calls, a successful call on `s` puts all parents
of `s` into the result and leaves every label either closed or pending. -/
theorem unaryUpdate_closed {u : Symbol → List Symbol} :
    ∀ fuel (S : Symbol → Prop) L s out, unaryUpdate u fuel L s = .ok out →
      (∀ x ∈ L, ClosedAt u L x ∨ S x ∨ x = s) →
      (∀ p ∈ u s, p ∈ out) ∧ (∀ x ∈ out, ClosedAt u out x ∨ S x) := by
  intro fuel
  induction fuel with
  | zero => intro S L s out h; cases h
  | succ f ih =>
      intro S L s out h hL
      have hloop := runLoop_closed (u := u)
        (fun L' s' out' h' => unaryUpdate_mono f L' s' out' h')
        (fun S' L' s' out' h' hpre => ih S' L' s' out' h' hpre)
        (u s) (fun x => S x ∨ x = s) L out h
        (by intro x hx; rcases hL x hx with hc | hS | hx' <;> simp_all)
      obtain ⟨hus, hout⟩ := hloop
      refine ⟨hus, ?_⟩
      intro x hx
      rcases hout x hx with hc | hS | rfl
      · exact Or.inl hc
      · exact Or.inr hS
      · exact Or.inl (fun p hp => hus p hp)

/-- After `addLabel s` followed by `unaryUpdate s` — the only way the
algorithm ever inserts a symbol — a closed label list stays closed. -/
theorem unaryUpdate_closedList {u : Symbol → List Symbol} {fuel : Nat}
    {L : List Symbol} {s : Symbol} {out : List Symbol}
    (hL : ClosedList u L)
    (h : unaryUpdate u fuel (addLabel L s) s = .ok out) : ClosedList u out := by
  have := unaryUpdate_closed fuel (fun _ => False) (addLabel L s) s out h ?_
  · intro x hx
    rcases this.2 x hx with hc | hF
    · exact hc
    · exact absurd hF not_false
  · intro x hx
    rcases mem_addLabel.mp hx with hx' | rfl
    · exact Or.inl ((hL x hx').mono (subset_addLabel L s))
    · exact Or.inr (Or.inr rfl)

/-! ### Fixed point: re-running closure on a closed list adds nothing -/

theorem runLoop_fixed {u : Symbol → List Symbol}
    {step : List Symbol → Symbol → Except CKYErr (List Symbol)}
    (hstep : ∀ L s, ClosedList u L → ClosedAt u L s →
      step L s = .ok L ∨ step L s = .error .recursionLimit) :
    ∀ ps L, ClosedList u L → (∀ p ∈ ps, p ∈ L) →
      runLoop step ps L = .ok L ∨ runLoop step ps L = .error .recursionLimit := by
  intro ps
  induction ps with
  | nil => intro L _ _; exact Or.inl rfl
  | cons p ps ih =>
      intro L hL hps
      have hpL : p ∈ L := hps p (List.mem_cons_self p ps)
      have hadd : addLabel L p = L := addLabel_of_mem hpL
      rcases hstep L p hL (hL p hpL) with hok | herr
      · unfold runLoop
        rw [hadd, hok]
        exact ih L hL (fun q hq => hps q (List.mem_cons_of_mem p hq))
      · unfold runLoop
        rw [hadd, herr]
        exact Or.inr rfl

theorem unaryUpdate_fixed {u : Symbol → List Symbol} :
    ∀ fuel L s, ClosedList u L → ClosedAt u L s →
      unaryUpdate u fuel L s = .ok L ∨
      unaryUpdate u fuel L s = .error .recursionLimit := by
  intro fuel
  induction fuel with
  | zero => intro L s _ _; exact Or.inr rfl
  | succ f ih =>
      intro L s hL hs
      exact runLoop_fixed (fun L' s' hL' hs' => ih L' s' hL' hs') (u s) L hL hs

/-! ### No duplicates: label lists stay `Nodup` -/

theorem runLoop_nodup {step : List Symbol → Symbol → Except CKYErr (List Symbol)}
    (hstep : ∀ L s out, step L s = .ok out → L.Nodup → out.Nodup) :
    ∀ ps L out, runLoop step ps L = .ok out → L.Nodup → out.Nodup := by
  intro ps
  induction ps with
  | nil => intro L out h hL; cases h; exact hL
  | cons p ps ih =>
      intro L out h hL
      unfold runLoop at h
      cases hs : step (addLabel L p) p with
      | error e => rw [hs] at h; cases h
      | ok L2 =>
          rw [hs] at h
          exact ih L2 out h (hstep _ _ _ hs (addLabel_nodup hL))

theorem unaryUpdate_nodup {u : Symbol → List Symbol} :
    ∀ fuel L s out, unaryUpdate u fuel L s = .ok out → L.Nodup → out.Nodup := by
  intro fuel
  induction fuel with
  | zero => intro L s out h; cases h
  | succ f ih =>
      intro L s out h hL
      exact runLoop_nodup (fun L' s' out' h' => ih L' s' out' h') (u s) L out h hL

/-! ### The `maybeBuild` loops -/

theorem buildPair_spec {b : Symbol × Symbol → List Symbol}
    {u : Symbol → List Symbol} {fuel : Nat} {s1 s2 : Symbol}
    {L out : List Symbol} (h : buildPair b u fuel s1 s2 L = .ok out) :
    L ⊆ out ∧ ∀ p ∈ b (s1, s2), p ∈ out := by
  unfold buildPair at h
  split at h
  · cases h
    refine ⟨fun _ hx => hx, ?_⟩
    intro p hp
    simp_all
  · exact runLoop_mono (fun L' s' out' h' => unaryUpdate_mono fuel L' s' out' h')
      (b (s1, s2)) L out h

theorem buildPair_closed {b : Symbol × Symbol → List Symbol}
    {u : Symbol → List Symbol} {fuel : Nat} {s1 s2 : Symbol}
    {L out : List Symbol} (h : buildPair b u fuel s1 s2 L = .ok out)
    (hL : ClosedList u L) : ClosedList u out := by
  unfold buildPair at h
  split at h
  · cases h; exact hL
  · have := runLoop_closed (u := u)
      (fun L' s' out' h' => unaryUpdate_mono fuel L' s' out' h')
      (fun S' L' s' out' h' hpre => unaryUpdate_closed fuel S' L' s' out' h' hpre)
      (b (s1, s2)) (fun _ => False) L out h
      (fun x hx => Or.inl (hL x hx))
    intro x hx
    rcases this.2 x hx with hc | hF
    · exact hc
    · exact absurd hF not_false

theorem buildPair_nodup {b : Symbol × Symbol → List Symbol}
    {u : Symbol → List Symbol} {fuel : Nat} {s1 s2 : Symbol}
    {L out : List Symbol} (h : buildPair b u fuel s1 s2 L = .ok out)
    (hL : L.Nodup) : out.Nodup := by
  unfold buildPair at h
  split at h
  · cases h; exact hL
  · exact runLoop_nodup (fun L' s' out' h' => unaryUpdate_nodup fuel L' s' out' h')
      (b (s1, s2)) L out h hL

theorem buildS2_spec {b : Symbol × Symbol → List Symbol}
    {u : Symbol → List Symbol} {fuel : Nat} {s1 : Symbol} :
    ∀ {ls2 L out : List Symbol}, buildS2 b u fuel s1 ls2 L = .ok out →
      L ⊆ out ∧ ∀ s2 ∈ ls2, ∀ p ∈ b (s1, s2), p ∈ out := by
  intro ls2
  induction ls2 with
  | nil => intro L out h; cases h; exact ⟨fun _ hx => hx, by simp⟩
  | cons s2 rest ih =>
      intro L out h
      unfold buildS2 at h
      cases hs : buildPair b u fuel s1 s2 L with
      | error e => rw [hs] at h; cases h
      | ok L2 =>
          rw [hs] at h
          obtain ⟨hsub2, hrest⟩ := ih h
          obtain ⟨hsub1, hpair⟩ := buildPair_spec hs
          refine ⟨fun x hx => hsub2 (hsub1 hx), ?_⟩
          intro s2' hs2' p hp
          rcases List.mem_cons.mp hs2' with rfl | hmem
          · exact hsub2 (hpair p hp)
          · exact hrest s2' hmem p hp

theorem buildS2_closed {b : Symbol × Symbol → List Symbol}
    {u : Symbol → List Symbol} {fuel : Nat} {s1 : Symbol} :
    ∀ {ls2 L out : List Symbol}, buildS2 b u fuel s1 ls2 L = .ok out →
      ClosedList u L → ClosedList u out := by
  intro ls2
  induction ls2 with
  | nil => intro L out h hL; cases h; exact hL
  | cons s2 rest ih =>
      intro L out h hL
      unfold buildS2 at h
      cases hs : buildPair b u fuel s1 s2 L with
      | error e => rw [hs] at h; cases h
      | ok L2 => rw [hs] at h; exact ih h (buildPair_closed hs hL)

theorem buildS2_nodup {b : Symbol × Symbol → List Symbol}
    {u : Symbol → List Symbol} {fuel : Nat} {s1 : Symbol} :
    ∀ {ls2 L out : List Symbol}, buildS2 b u fuel s1 ls2 L = .ok out →
      L.Nodup → out.Nodup := by
  intro ls2
  induction ls2 with
  | nil => intro L out h hL; cases h; exact hL
  | cons s2 rest ih =>
      intro L out h hL
      unfold buildS2 at h
      cases hs : buildPair b u fuel s1 s2 L with
      | error e => rw [hs] at h; cases h
      | ok L2 => rw [hs] at h; exact ih h (buildPair_nodup hs hL)

theorem buildS1_spec {b : Symbol × Symbol → List Symbol}
    {u : Symbol → List Symbol} {fuel : Nat} {ls2 : List Symbol} :
    ∀ {ls1 L out : List Symbol}, buildS1 b u fuel ls2 ls1 L = .ok out →
      L ⊆ out ∧ ∀ s1 ∈ ls1, ∀ s2 ∈ ls2, ∀ p ∈ b (s1, s2), p ∈ out := by
  intro ls1
  induction ls1 with
  | nil => intro L out h; cases h; exact ⟨fun _ hx => hx, by simp⟩
  | cons s1 rest ih =>
      intro L out h
      unfold buildS1 at h
      cases hs : buildS2 b u fuel s1 ls2 L with
      | error e => rw [hs] at h; cases h
      | ok L2 =>
          rw [hs] at h
          obtain ⟨hsub2, hrest⟩ := ih h
          obtain ⟨hsub1, hinner⟩ := buildS2_spec hs
          refine ⟨fun x hx => hsub2 (hsub1 hx), ?_⟩
          intro s1' hs1' s2' hs2' p hp
          rcases List.mem_cons.mp hs1' with rfl | hmem
          · exact hsub2 (hinner s2' hs2' p hp)
          · exact hrest s1' hmem s2' hs2' p hp

theorem buildS1_closed {b : Symbol × Symbol → List Symbol}
    {u : Symbol → List Symbol} {fuel : Nat} {ls2 : List Symbol} :
    ∀ {ls1 L out : List Symbol}, buildS1 b u fuel ls2 ls1 L = .ok out →
      ClosedList u L → ClosedList u out := by
  intro ls1
  induction ls1 with
  | nil => intro L out h hL; cases h; exact hL
  | cons s1 rest ih =>
      intro L out h hL
      unfold buildS1 at h
      cases hs : buildS2 b u fuel s1 ls2 L with
      | error e => rw [hs] at h; cases h
      | ok L2 => rw [hs] at h; exact ih h (buildS2_closed hs hL)

theorem buildS1_nodup {b : Symbol × Symbol → List Symbol}
    {u : Symbol → List Symbol} {fuel : Nat} {ls2 : List Symbol} :
    ∀ {ls1 L out : List Symbol}, buildS1 b u fuel ls2 ls1 L = .ok out →
      L.Nodup → out.Nodup := by
  intro ls1
  induction ls1 with
  | nil => intro L out h hL; cases h; exact hL
  | cons s1 rest ih =>
      intro L out h hL
      unfold buildS1 at h
      cases hs : buildS2 b u fuel s1 ls2 L with
      | error e => rw [hs] at h; cases h
      | ok L2 => rw [hs] at h; exact ih h (buildS2_nodup hs hL)

/-! ### Chart-level invariants -/

theorem updateChart_self (ch : Chart) (pos : Nat × Nat) (L : List Symbol) :
    updateChart ch pos L pos = L := by
  unfold updateChart
  simp

theorem updateChart_other (ch : Chart) (pos : Nat × Nat) (L : List Symbol)
    {q : Nat × Nat} (h : q ≠ pos) : updateChart ch pos L q = ch q := by
  unfold updateChart
  simp [h]

theorem emptyChart_closed (u : Symbol → List Symbol) :
    ChartClosed u emptyChart := by
  intro q x hx
  cases hx

theorem emptyChart_nodup : ChartNodup emptyChart := by
  intro q
  exact List.nodup_nil

theorem maybeBuild_frame {b : Symbol × Symbol → List Symbol}
    {u : Symbol → List Symbol} {fuel start mid stop : Nat} {ch ch' : Chart}
    (h : maybeBuild b u fuel start mid stop ch = .ok ch') :
    ∀ q, q ≠ (start, stop) → ch' q = ch q := by
  unfold maybeBuild at h
  cases hs : buildS1 b u fuel (ch (mid, stop)) (ch (start, mid)) (ch (start, stop)) with
  | error e => rw [hs] at h; cases h
  | ok L =>
      rw [hs] at h
      cases h
      intro q hq
      exact updateChart_other ch (start, stop) L hq

theorem maybeBuild_parents {b : Symbol × Symbol → List Symbol}
    {u : Symbol → List Symbol} {fuel start mid stop : Nat} {ch ch' : Chart}
    (h : maybeBuild b u fuel start mid stop ch = .ok ch') :
    ch (start, stop) ⊆ ch' (start, stop) ∧
    ∀ s1 ∈ ch (start, mid), ∀ s2 ∈ ch (mid, stop), ∀ p ∈ b (s1, s2),
      p ∈ ch' (start, stop) := by
  unfold maybeBuild at h
  cases hs : buildS1 b u fuel (ch (mid, stop)) (ch (start, mid)) (ch (start, stop)) with
  | error e => rw [hs] at h; cases h
  | ok L =>
      rw [hs] at h
      cases h
      rw [updateChart_self]
      exact buildS1_spec hs

theorem maybeBuild_closed {b : Symbol × Symbol → List Symbol}
    {u : Symbol → List Symbol} {fuel start mid stop : Nat} {ch ch' : Chart}
    (h : maybeBuild b u fuel start mid stop ch = .ok ch')
    (hch : ChartClosed u ch) : ChartClosed u ch' := by
  unfold maybeBuild at h
  cases hs : buildS1 b u fuel (ch (mid, stop)) (ch (start, mid)) (ch (start, stop)) with
  | error e => rw [hs] at h; cases h
  | ok L =>
      rw [hs] at h
      cases h
      intro q
      by_cases hq : q = (start, stop)
      · subst hq
        rw [updateChart_self]
        exact buildS1_closed hs (hch (start, stop))
      · rw [updateChart_other _ _ _ hq]
        exact hch q

theorem maybeBuild_nodup {b : Symbol × Symbol → List Symbol}
    {u : Symbol → List Symbol} {fuel start mid stop : Nat} {ch ch' : Chart}
    (h : maybeBuild b u fuel start mid stop ch = .ok ch')
    (hch : ChartNodup ch) : ChartNodup ch' := by
  unfold maybeBuild at h
  cases hs : buildS1 b u fuel (ch (mid, stop)) (ch (start, mid)) (ch (start, stop)) with
  | error e => rw [hs] at h; cases h
  | ok L =>
      rw [hs] at h
      cases h
      intro q
      by_cases hq : q = (start, stop)
      · subst hq
        rw [updateChart_self]
        exact buildS1_nodup hs (hch (start, stop))
      · rw [updateChart_other _ _ _ hq]
        exact hch q

theorem foldRangeM_preserve {f : Nat → Chart → Except CKYErr Chart}
    {P : Chart → Prop}
    (hf : ∀ i ch ch', f i ch = .ok ch' → P ch → P ch') :
    ∀ k i ch ch', foldRangeM f i k ch = .ok ch' → P ch → P ch' := by
  intro k
  induction k with
  | zero => intro i ch ch' h hP; cases h; exact hP
  | succ k ih =>
      intro i ch ch' h hP
      unfold foldRangeM at h
      cases hs : f i ch with
      | error e => rw [hs] at h; cases h
      | ok ch2 => rw [hs] at h; exact ih (i + 1) ch2 ch' h (hf i ch ch2 hs hP)

theorem binaryScan_closed {b : Symbol × Symbol → List Symbol}
    {u : Symbol → List Symbol} {fuel n : Nat} {ch ch' : Chart}
    (h : binaryScan b u fuel n ch = .ok ch') (hch : ChartClosed u ch) :
    ChartClosed u ch' := by
  unfold binaryScan at h
  refine foldRangeM_preserve ?_ (n - 2) 2 ch ch' h hch
  intro span ch1 ch1' h1 hP1
  refine foldRangeM_preserve ?_ (n - span) 0 ch1 ch1' h1 hP1
  intro start ch2 ch2' h2 hP2
  refine foldRangeM_preserve ?_ (span - 1) (start + 1) ch2 ch2' h2 hP2
  intro mid ch3 ch3' h3 hP3
  exact maybeBuild_closed h3 hP3

theorem binaryScan_nodup {b : Symbol × Symbol → List Symbol}
    {u : Symbol → List Symbol} {fuel n : Nat} {ch ch' : Chart}
    (h : binaryScan b u fuel n ch = .ok ch') (hch : ChartNodup ch) :
    ChartNodup ch' := by
  unfold binaryScan at h
  refine foldRangeM_preserve ?_ (n - 2) 2 ch ch' h hch
  intro span ch1 ch1' h1 hP1
  refine foldRangeM_preserve ?_ (n - span) 0 ch1 ch1' h1 hP1
  intro start ch2 ch2' h2 hP2
  refine foldRangeM_preserve ?_ (span - 1) (start + 1) ch2 ch2' h2 hP2
  intro mid ch3 ch3' h3 hP3
  exact maybeBuild_nodup h3 hP3

/-! ### The diagonal fill -/

theorem unaryFillAux_spec {u : Symbol → List Symbol} {fuel : Nat} :
    ∀ {ws : List Symbol} {r : Nat} {ch ch' : Chart},
      unaryFillAux u fuel ws r ch = .ok ch' →
      (∀ q : Nat × Nat, (∀ i, i < ws.length → q ≠ (r + i, r + i + 1)) → ch' q = ch q) ∧
      ∀ i (h : i < ws.length),
        unaryUpdate u fuel (addLabel (ch (r + i, r + i + 1)) (ws.get ⟨i, h⟩))
            (ws.get ⟨i, h⟩) = .ok (ch' (r + i, r + i + 1)) := by
  intro ws
  induction ws with
  | nil =>
      intro r ch ch' h
      cases h
      exact ⟨fun q _ => rfl, fun i hi => absurd hi (Nat.not_lt_zero i)⟩
  | cons w ws ih =>
      intro r ch ch' h
      unfold unaryFillAux at h
      cases hs : unaryUpdate u fuel (addLabel (ch (r, r + 1)) w) w with
      | error e => rw [hs] at h; cases h
      | ok L =>
          rw [hs] at h
          obtain ⟨hframe, hcells⟩ := ih h
          have hdiag : ∀ j, (r, r + 1) ≠ (r + 1 + j, r + 1 + j + 1) := by
            intro j hj
            have := (Prod.mk.injEq _ _ _ _).mp hj
            omega
          constructor
          · intro q hq
            have hq0 : q ≠ (r, r + 1) := by
              have := hq 0 (by simp)
              simpa using this
            have : ch' q = updateChart ch (r, r + 1) L q := by
              refine hframe q ?_
              intro i hi
              have := hq (i + 1) (by simpa using Nat.succ_lt_succ hi)
              intro hcontra
              apply this
              rw [hcontra]
              congr 1 <;> omega
            rw [this, updateChart_other _ _ _ hq0]
          · intro i hi
            cases i with
            | zero =>
                have hch' : ch' (r, r + 1) = updateChart ch (r, r + 1) L (r, r + 1) := by
                  refine hframe (r, r + 1) ?_
                  intro j hj
                  exact hdiag j
                simp only [Nat.add_zero, List.get]
                rw [hch', updateChart_self]
                exact hs
            | succ i =>
                have hstep := hcells i (by simpa using Nat.lt_of_succ_lt_succ hi)
                have hcell : updateChart ch (r, r + 1) L (r + 1 + i, r + 1 + i + 1) =
                    ch (r + 1 + i, r + 1 + i + 1) := by
                  refine updateChart_other _ _ _ ?_
                  intro hcontra
                  have := (Prod.mk.injEq _ _ _ _).mp hcontra
                  omega
                rw [hcell] at hstep
                have harith : r + 1 + i = r + (i + 1) := by omega
                rw [harith] at hstep
                simpa using hstep

theorem unaryFillAux_closed {u : Symbol → List Symbol} {fuel : Nat} :
    ∀ {ws : List Symbol} {r : Nat} {ch ch' : Chart},
      unaryFillAux u fuel ws r ch = .ok ch' → ChartClosed u ch →
      ChartClosed u ch' := by
  intro ws
  induction ws with
  | nil => intro r ch ch' h hch; cases h; exact hch
  | cons w ws ih =>
      intro r ch ch' h hch
      unfold unaryFillAux at h
      cases hs : unaryUpdate u fuel (addLabel (ch (r, r + 1)) w) w with
      | error e => rw [hs] at h; cases h
      | ok L =>
          rw [hs] at h
          refine ih h ?_
          intro q
          by_cases hq : q = (r, r + 1)
          · subst hq
            rw [updateChart_self]
            exact unaryUpdate_closedList (hch (r, r + 1)) hs
          · rw [updateChart_other _ _ _ hq]
            exact hch q

theorem unaryFillAux_nodup {u : Symbol → List Symbol} {fuel : Nat} :
    ∀ {ws : List Symbol} {r : Nat} {ch ch' : Chart},
      unaryFillAux u fuel ws r ch = .ok ch' → ChartNodup ch →
      ChartNodup ch' := by
  intro ws
  induction ws with
  | nil => intro r ch ch' h hch; cases h; exact hch
  | cons w ws ih =>
      intro r ch ch' h hch
      unfold unaryFillAux at h
      cases hs : unaryUpdate u fuel (addLabel (ch (r, r + 1)) w) w with
      | error e => rw [hs] at h; cases h
      | ok L =>
          rw [hs] at h
          refine ih h ?_
          intro q
          by_cases hq : q = (r, r + 1)
          · subst hq
            rw [updateChart_self]
            exact unaryUpdate_nodup fuel _ _ _ hs (addLabel_nodup (hch (r, r + 1)))
          · rw [updateChart_other _ _ _ hq]
            exact hch q

/-! ### The whole chart fill -/

theorem ckyChart_closed {c : CKY} {fuel : Nat} {tokens : List Symbol}
    {ch : Chart} (h : ckyChart c fuel tokens = .ok ch) :
    ChartClosed c.unary ch := by
  unfold ckyChart at h
  cases hs : unaryFill c.unary fuel tokens emptyChart with
  | error e => rw [hs] at h; cases h
  | ok chD =>
      rw [hs] at h
      exact binaryScan_closed h (unaryFillAux_closed hs (emptyChart_closed c.unary))

theorem ckyChart_nodup {c : CKY} {fuel : Nat} {tokens : List Symbol}
    {ch : Chart} (h : ckyChart c fuel tokens = .ok ch) : ChartNodup ch := by
  unfold ckyChart at h
  cases hs : unaryFill c.unary fuel tokens emptyChart with
  | error e => rw [hs] at h; cases h
  | ok chD =>
      rw [hs] at h
      exact binaryScan_nodup h (unaryFillAux_nodup hs emptyChart_nodup)

/-! ### The visit order of the binary scan, spelled out -/

theorem foldRangeM_eq_foldNatsM {f : Nat → Chart → Except CKYErr Chart} :
    ∀ k lo ch, foldRangeM f lo k ch = foldNatsM f (natRange lo k) ch := by
  intro k
  induction k with
  | zero => intro lo ch; rfl
  | succ k ih =>
      intro lo ch
      unfold foldRangeM natRange foldNatsM
      cases f lo ch with
      | error e => rfl
      | ok ch2 => exact ih (lo + 1) ch2

theorem foldTriples_append {b : Symbol × Symbol → List Symbol}
    {u : Symbol → List Symbol} {fuel : Nat} :
    ∀ (xs ys : List (Nat × Nat × Nat)) (ch : Chart),
      foldTriples b u fuel (xs ++ ys) ch =
        match foldTriples b u fuel xs ch with
        | .error e => .error e
        | .ok ch2 => foldTriples b u fuel ys ch2 := by
  intro xs
  induction xs with
  | nil => intro ys ch; rfl
  | cons t ts ih =>
      intro ys ch
      simp only [List.cons_append, foldTriples]
      cases hmb : maybeBuild b u fuel t.1 t.2.1 t.2.2 ch with
      | error e => rfl
      | ok ch2 => exact ih ys ch2

theorem foldNatsM_flatMap {b : Symbol × Symbol → List Symbol}
    {u : Symbol → List Symbol} {fuel : Nat}
    {f : Nat → Chart → Except CKYErr Chart} {g : Nat → List (Nat × Nat × Nat)}
    (hf : ∀ i ch, f i ch = foldTriples b u fuel (g i) ch) :
    ∀ (l : List Nat) (ch : Chart),
      foldNatsM f l ch = foldTriples b u fuel (l.flatMap g) ch := by
  intro l
  induction l with
  | nil => intro ch; rfl
  | cons i is ih =>
      intro ch
      show foldNatsM f (i :: is) ch = foldTriples b u fuel (g i ++ is.flatMap g) ch
      rw [foldTriples_append]
      unfold foldNatsM
      rw [hf i ch]
      cases foldTriples b u fuel (g i) ch with
      | error e => rfl
      | ok ch2 => exact ih ch2

theorem foldNatsM_map_maybeBuild {b : Symbol × Symbol → List Symbol}
    {u : Symbol → List Symbol} {fuel : Nat} {start stop : Nat} :
    ∀ (mids : List Nat) (ch : Chart),
      foldNatsM (fun mid ch3 => maybeBuild b u fuel start mid stop ch3) mids ch =
        foldTriples b u fuel (mids.map fun mid => (start, mid, stop)) ch := by
  intro mids
  induction mids with
  | nil => intro ch; rfl
  | cons mid rest ih =>
      intro ch
      unfold foldNatsM List.map foldTriples
      cases maybeBuild b u fuel start mid stop ch with
      | error e => rfl
      | ok ch2 => exact ih ch2

/-- `binaryScan` is exactly the fold of `maybeBuild` over the spelled-out
visit schedule. -/
theorem binaryScan_eq_schedule {b : Symbol × Symbol → List Symbol}
    {u : Symbol → List Symbol} {fuel : Nat} (n : Nat) (ch : Chart) :
    binaryScan b u fuel n ch = foldTriples b u fuel (schedule n) ch := by
  unfold binaryScan schedule
  rw [foldRangeM_eq_foldNatsM]
  refine foldNatsM_flatMap ?_ (natRange 2 (n - 2)) ch
  intro span ch1
  rw [foldRangeM_eq_foldNatsM]
  refine foldNatsM_flatMap ?_ (natRange 0 (n - span)) ch1
  intro start ch2
  rw [foldRangeM_eq_foldNatsM]
  exact foldNatsM_map_maybeBuild (natRange (start + 1) (span - 1)) ch2

/-! ### Remaining helper lemmas -/

theorem maybeBuild_cell_closed {b : Symbol × Symbol → List Symbol}
    {u : Symbol → List Symbol} {fuel start mid stop : Nat} {ch ch' : Chart}
    (h : maybeBuild b u fuel start mid stop ch = .ok ch')
    (hc : ClosedList u (ch (start, stop))) :
    ClosedList u (ch' (start, stop)) := by
  unfold maybeBuild at h
  cases hs : buildS1 b u fuel (ch (mid, stop)) (ch (start, mid)) (ch (start, stop)) with
  | error e => rw [hs] at h; cases h
  | ok L =>
      rw [hs] at h
      cases h
      rw [updateChart_self]
      exact buildS1_closed hs hc

theorem assertRhsLens_eq : ∀ ps : List Production,
    assertRhsLens ps =
      (if ∀ p ∈ ps, 0 < p.rhs.length ∧ p.rhs.length ≤ 2
       then .ok () else .error .assertionError) := by
  intro ps
  induction ps with
  | nil => simp [assertRhsLens]
  | cons p ps ih =>
      unfold assertRhsLens
      by_cases hp : 0 < p.rhs.length ∧ p.rhs.length ≤ 2
      · rw [if_pos hp, ih]
        by_cases hps : ∀ q ∈ ps, 0 < q.rhs.length ∧ q.rhs.length ≤ 2
        · rw [if_pos hps, if_pos]
          intro q hq
          rcases List.mem_cons.mp hq with rfl | hq'
          · exact hp
          · exact hps q hq'
        · rw [if_neg hps, if_neg]
          intro hall
          exact hps fun q hq => hall q (List.mem_cons_of_mem p hq)
      · rw [if_neg hp, if_neg]
        intro hall
        exact hp (hall p (List.mem_cons_self p ps))

theorem buildUnary_eq_filter : ∀ (ps : List Production) (c : Symbol),
    buildUnary ps c =
      (ps.filter fun p => decide (p.rhs = [c])).map Production.lhs := by
  intro ps c
  induction ps with
  | nil => rfl
  | cons p ps ih =>
      unfold buildUnary
      by_cases hp : p.rhs = [c]
      · rw [if_pos hp, List.filter_cons_of_pos (by simpa using hp), List.map_cons, ih]
      · rw [if_neg hp, List.filter_cons_of_neg (by simpa using hp), ih]

theorem buildBinary_eq_filter : ∀ (ps : List Production) (k : Symbol × Symbol),
    buildBinary ps k =
      (ps.filter fun p => decide (p.rhs = [k.1, k.2])).map Production.lhs := by
  intro ps k
  induction ps with
  | nil => rfl
  | cons p ps ih =>
      unfold buildBinary
      by_cases hp : p.rhs = [k.1, k.2]
      · rw [if_pos hp, List.filter_cons_of_pos (by simpa using hp), List.map_cons, ih]
      · rw [if_neg hp, List.filter_cons_of_neg (by simpa using hp), ih]

/-! ### The claims -/

/-- C1: for every grammar and every non-empty token sequence on which
`recognise` terminates, it returns `False` exactly when the start symbol is
missing from the full-span cell `(0, n - 1)`, and otherwise the count of
the distinct labels of that cell (the label list of which has no
duplicates). -/
theorem recognise_full_span_cell (c : CKY) (fuel : Nat) (tokens : List Symbol)
    (hne : tokens ≠ []) (ch : Chart) (h : ckyChart c fuel tokens = .ok ch) :
    recognise c fuel tokens =
      .ok (if c.grammar.start ∈ ch (0, tokens.length) then
             .derivable (ch (0, tokens.length)).length
           else .notDerivable) ∧
    (ch (0, tokens.length)).Nodup := by
  have hlen : tokens.length ≠ 0 := fun h0 => hne (List.length_eq_zero.mp h0)
  refine ⟨?_, ckyChart_nodup h (0, tokens.length)⟩
  simp only [recognise, h, Nat.add_sub_cancel]
  rw [if_neg hlen]
  by_cases hmem : c.grammar.start ∈ ch (0, tokens.length)
  · rw [if_pos hmem, if_pos hmem]
  · rw [if_neg hmem, if_neg hmem]

/-- Witness for C1: the grammar `S -> A B, A -> a, B -> b` on tokens
`[a, b]`. -/
theorem recognise_full_span_cell_witness :
    recognise exCKY 3 [.term "a", .term "b"] =
      .ok (if exCKY.grammar.start ∈ exChart (0, 2) then
             .derivable (exChart (0, 2)).length
           else .notDerivable) ∧
    (exChart (0, 2)).Nodup :=
  recognise_full_span_cell exCKY 3 [.term "a", .term "b"]
    (List.cons_ne_nil _ _) exChart rfl

/-- C2: the claim says `unaryUpdate` terminates on every grammar, even with
the unary cycle `X -> Y, Y -> X`.  The code has no cycle guard: it
re-expands every parent regardless of cell membership, so on that cyclic
grammar the call on `X` exhausts every recursion bound — for all fuel and
every starting label list it hits the recursion limit instead of
returning. -/
theorem unaryUpdate_cycle_diverges :
    ∀ (fuel : Nat) (L : List Symbol),
      unaryUpdate cycUnary fuel L (.nt "X") = .error .recursionLimit := by
  have key : ∀ fuel : Nat,
      (∀ L, unaryUpdate cycUnary fuel L (.nt "X") = .error .recursionLimit) ∧
      (∀ L, unaryUpdate cycUnary fuel L (.nt "Y") = .error .recursionLimit) := by
    intro fuel
    induction fuel with
    | zero => exact ⟨fun _ => rfl, fun _ => rfl⟩
    | succ f ih =>
        constructor
        · intro L
          show runLoop (unaryUpdate cycUnary f) (cycUnary (.nt "X")) L = _
          have hx : cycUnary (.nt "X") = [.nt "Y"] := rfl
          rw [hx]
          unfold runLoop
          rw [ih.2 (addLabel L (.nt "Y"))]
        · intro L
          show runLoop (unaryUpdate cycUnary f) (cycUnary (.nt "Y")) L = _
          have hy : cycUnary (.nt "Y") = [.nt "X"] := rfl
          rw [hy]
          unfold runLoop
          rw [ih.1 (addLabel L (.nt "X"))]
  exact fun fuel L => (key fuel).1 L

/-- C3 counterexample: on the empty token sequence `recognise` does not
return a normal not-derivable outcome — reading `self.matrix[0]` of the
empty matrix raises `IndexError`. -/
theorem recognise_empty_counterexample :
    recognise exCKY 3 [] = .error .indexError := rfl

/-- C3 amended: for every grammar and every fuel, calling `recognise` on
an empty token sequence raises `IndexError` (the matrix has `n - 1 = 0`
rows, so the full-span read `self.matrix[0]` is out of range); it never
returns a normal outcome. -/
theorem recognise_empty_index_error (c : CKY) (fuel : Nat) :
    recognise c fuel [] = .error .indexError := rfl

/-- C4: the binary scan visits exactly the `(start, mid, end)` triples of
`schedule n` — spans 2 to `n-1` increasing, then start positions with
`end = start + span ≤ n-1`, then split points strictly between — folding
`maybeBuild` over them; and each successful build attempt changes only
cell `(start, end)`, puts every parent of every index key `(s1, s2)` drawn
from the two source cells into it, and keeps that cell unary-closed. -/
theorem binaryScan_visits_schedule :
    (∀ (b : Symbol × Symbol → List Symbol) (u : Symbol → List Symbol)
       (fuel n : Nat) (ch : Chart),
        binaryScan b u fuel n ch = foldTriples b u fuel (schedule n) ch) ∧
    (∀ (b : Symbol × Symbol → List Symbol) (u : Symbol → List Symbol)
       (fuel start mid stop : Nat) (ch ch' : Chart),
        maybeBuild b u fuel start mid stop ch = .ok ch' →
        (∀ q, q ≠ (start, stop) → ch' q = ch q) ∧
        (∀ s1 ∈ ch (start, mid), ∀ s2 ∈ ch (mid, stop), ∀ p ∈ b (s1, s2),
          p ∈ ch' (start, stop)) ∧
        (ClosedList u (ch (start, stop)) → ClosedList u (ch' (start, stop)))) :=
  ⟨fun _ _ _ n ch => binaryScan_eq_schedule n ch,
   fun _ _ _ _ _ _ _ _ h =>
     ⟨maybeBuild_frame h, (maybeBuild_parents h).2,
      fun hc => maybeBuild_cell_closed h hc⟩⟩

/-- Witness for C4: the build attempt at `(0, 1, 2)` on the diagonal-filled
chart of `[a, b]`. -/
theorem binaryScan_visits_schedule_witness :
    (∀ q, q ≠ ((0 : Nat), (2 : Nat)) → exChart q = exDiagChart q) ∧
    (∀ s1 ∈ exDiagChart (0, 1), ∀ s2 ∈ exDiagChart (1, 2),
      ∀ p ∈ exCKY.binary (s1, s2), p ∈ exChart (0, 2)) ∧
    (ClosedList exCKY.unary (exDiagChart (0, 2)) →
      ClosedList exCKY.unary (exChart (0, 2))) :=
  binaryScan_visits_schedule.2 exCKY.binary exCKY.unary 3 0 1 2
    exDiagChart exChart rfl

/-- C5: when the chart fill succeeds, the diagonal fill runs first and, for
each row `r`, adds the literal token at position `r` to cell `(r, r+1)` and
then applies unary closure to that cell starting from the token — the cell
is exactly the result of `unaryUpdate` after `addLabel` on the empty cell —
and only then does the binary scan run, on the diagonal-filled chart. -/
theorem unaryFill_diagonal (c : CKY) (fuel : Nat) (tokens : List Symbol)
    (chF : Chart) (h : ckyChart c fuel tokens = .ok chF) :
    ∃ chD : Chart,
      unaryFill c.unary fuel tokens emptyChart = .ok chD ∧
      binaryScan c.binary c.unary fuel (tokens.length + 1) chD = .ok chF ∧
      ∀ r (hr : r < tokens.length),
        tokens.get ⟨r, hr⟩ ∈ chD (r, r + 1) ∧
        unaryUpdate c.unary fuel
            (addLabel (emptyChart (r, r + 1)) (tokens.get ⟨r, hr⟩))
            (tokens.get ⟨r, hr⟩) = .ok (chD (r, r + 1)) := by
  unfold ckyChart at h
  cases hs : unaryFill c.unary fuel tokens emptyChart with
  | error e => rw [hs] at h; cases h
  | ok chD =>
      rw [hs] at h
      refine ⟨chD, rfl, h, ?_⟩
      intro r hr
      have hcell := (unaryFillAux_spec hs).2 r hr
      simp only [Nat.zero_add] at hcell
      refine ⟨?_, hcell⟩
      have hsub := unaryUpdate_mono fuel _ _ _ hcell
      exact hsub (self_mem_addLabel _ _)

/-- Witness for C5: the chart fill of `[a, b]` under `exCKY`. -/
theorem unaryFill_diagonal_witness :
    ∃ chD : Chart,
      unaryFill exCKY.unary 3 [.term "a", .term "b"] emptyChart = .ok chD ∧
      binaryScan exCKY.binary exCKY.unary 3 3 chD = .ok exChart ∧
      ∀ r (hr : r < ([Symbol.term "a", Symbol.term "b"]).length),
        ([Symbol.term "a", Symbol.term "b"]).get ⟨r, hr⟩ ∈ chD (r, r + 1) ∧
        unaryUpdate exCKY.unary 3
            (addLabel (emptyChart (r, r + 1))
              (([Symbol.term "a", Symbol.term "b"]).get ⟨r, hr⟩))
            (([Symbol.term "a", Symbol.term "b"]).get ⟨r, hr⟩) =
          .ok (chD (r, r + 1)) :=
  unaryFill_diagonal exCKY 3 [.term "a", .term "b"] exChart rfl

/-- C6: after a terminating recognition every cell is unary-closed — every
parent of every label of a cell is in the cell — and closure is at a fixed
point: re-running `unaryUpdate` on a cell from any of its labels either
returns the cell unchanged or exhausts the recursion bound, but never adds
a label. -/
theorem chart_unary_closed (c : CKY) (fuel : Nat) (tokens : List Symbol)
    (ch : Chart) (h : ckyChart c fuel tokens = .ok ch) :
    (∀ q, ∀ x ∈ ch q, ∀ p ∈ c.unary x, p ∈ ch q) ∧
    (∀ q s, s ∈ ch q → ∀ fuel2,
      unaryUpdate c.unary fuel2 (ch q) s = .ok (ch q) ∨
      unaryUpdate c.unary fuel2 (ch q) s = .error .recursionLimit) := by
  have hcl := ckyChart_closed h
  refine ⟨fun q x hx p hp => hcl q x hx p hp, ?_⟩
  intro q s hs fuel2
  exact unaryUpdate_fixed fuel2 (ch q) s (hcl q) (hcl q s hs)

/-- Witness for C6: the finished chart of `[a, b]` under `exCKY`. -/
theorem chart_unary_closed_witness :
    (∀ q, ∀ x ∈ exChart q, ∀ p ∈ exCKY.unary x, p ∈ exChart q) ∧
    (∀ q s, s ∈ exChart q → ∀ fuel2,
      unaryUpdate exCKY.unary fuel2 (exChart q) s = .ok (exChart q) ∨
      unaryUpdate exCKY.unary fuel2 (exChart q) s = .error .recursionLimit) :=
  chart_unary_closed exCKY 3 [.term "a", .term "b"] exChart rfl

/-- C7: building the rule indices fails with the construction-time
assertion error exactly when some production has a right-hand side of
length 0 or more than 2; the error arises in the constructor, before any
recognition, and construction succeeds whenever every right-hand side has
length 1 or 2. -/
theorem buildIndices_arity_check (g : Grammar) :
    ((∃ p ∈ g.productions, p.rhs.length = 0 ∨ 2 < p.rhs.length) ↔
      mkCKY g = .error .assertionError) ∧
    ((∀ p ∈ g.productions, p.rhs.length = 1 ∨ p.rhs.length = 2) →
      ∃ c : CKY, mkCKY g = .ok c) := by
  constructor
  · unfold mkCKY
    rw [assertRhsLens_eq]
    by_cases hall : ∀ p ∈ g.productions, 0 < p.rhs.length ∧ p.rhs.length ≤ 2
    · rw [if_pos hall]
      simp only [reduceCtorEq, iff_false]
      rintro ⟨p, hp, hbad⟩
      have := hall p hp
      omega
    · rw [if_neg hall]
      simp only [iff_true]
      push_neg at hall
      obtain ⟨p, hp, hbad⟩ := hall
      refine ⟨p, hp, ?_⟩
      rcases Nat.eq_zero_or_pos p.rhs.length with h0 | h0
      · exact Or.inl h0
      · exact Or.inr (by omega)
  · intro hall
    refine ⟨⟨g, buildUnary g.productions, buildBinary g.productions⟩, ?_⟩
    unfold mkCKY
    rw [assertRhsLens_eq, if_pos ?_]
    intro p hp
    rcases hall p hp with h1 | h2
    · omega
    · omega

/-- Witness for C7: a production with a length-3 right-hand side is
rejected, and the well-formed example grammar is accepted. -/
theorem buildIndices_arity_check_witness :
    mkCKY badGrammar = .error .assertionError ∧
    ∃ c : CKY, mkCKY exGrammar = .ok c :=
  ⟨(buildIndices_arity_check badGrammar).1.mp
     ⟨⟨.nt "S", [.nt "A", .nt "B", .nt "A"]⟩, by decide, by decide⟩,
   (buildIndices_arity_check exGrammar).2 (by decide)⟩

/-- C8: label addition has set semantics with insertion order kept: adding
a symbol already present changes nothing, adding twice equals adding once,
a fresh symbol is appended at the end, membership afterwards is membership
before or equality with the added symbol, and duplicate-freeness is
preserved. -/
theorem addLabel_set_semantics (L : List Symbol) (s : Symbol) :
    (s ∈ L → addLabel L s = L) ∧
    (s ∉ L → addLabel L s = L ++ [s]) ∧
    addLabel (addLabel L s) s = addLabel L s ∧
    (∀ x, x ∈ addLabel L s ↔ x ∈ L ∨ x = s) ∧
    (L.Nodup → (addLabel L s).Nodup) :=
  ⟨fun h => addLabel_of_mem h,
   fun h => addLabel_of_not_mem h,
   addLabel_of_mem (self_mem_addLabel L s),
   fun _ => mem_addLabel,
   fun h => addLabel_nodup h⟩

/-- Witness for C8 at the one-element label list `[A]` and symbol `B`. -/
theorem addLabel_set_semantics_witness :
    ((.nt "B") ∈ [Symbol.nt "A"] → addLabel [Symbol.nt "A"] (.nt "B") = [Symbol.nt "A"]) ∧
    ((.nt "B") ∉ [Symbol.nt "A"] →
      addLabel [Symbol.nt "A"] (.nt "B") = [Symbol.nt "A"] ++ [.nt "B"]) ∧
    addLabel (addLabel [Symbol.nt "A"] (.nt "B")) (.nt "B") =
      addLabel [Symbol.nt "A"] (.nt "B") ∧
    (∀ x, x ∈ addLabel [Symbol.nt "A"] (.nt "B") ↔ x ∈ [Symbol.nt "A"] ∨ x = .nt "B") ∧
    (([Symbol.nt "A"] : List Symbol).Nodup →
      (addLabel [Symbol.nt "A"] (.nt "B")).Nodup) :=
  addLabel_set_semantics [Symbol.nt "A"] (.nt "B")

/-- C9: for productions of right-hand length 1 or 2, the unary index at a
child symbol is the list of left-hand parents of the productions with that
one-symbol right side, in production order, and likewise the binary index
at an ordered pair — without deduplication, so the index length equals the
number of matching productions, counting a repeated parent once per
production. -/
theorem buildIndices_no_dedup (prods : List Production) (cs : Symbol)
    (k : Symbol × Symbol)
    (_hlen : ∀ p ∈ prods, p.rhs.length = 1 ∨ p.rhs.length = 2) :
    buildUnary prods cs =
      (prods.filter fun p => decide (p.rhs = [cs])).map Production.lhs ∧
    buildBinary prods k =
      (prods.filter fun p => decide (p.rhs = [k.1, k.2])).map Production.lhs ∧
    (buildUnary prods cs).length =
      prods.countP (fun p => decide (p.rhs = [cs])) ∧
    (buildBinary prods k).length =
      prods.countP (fun p => decide (p.rhs = [k.1, k.2])) := by
  refine ⟨buildUnary_eq_filter prods cs, buildBinary_eq_filter prods k, ?_, ?_⟩
  · rw [buildUnary_eq_filter prods cs, List.length_map,
      List.countP_eq_length_filter]
  · rw [buildBinary_eq_filter prods k, List.length_map,
      List.countP_eq_length_filter]

/-- Witness for C9 on the example grammar, at child `a` and pair
`(A, B)`. -/
theorem buildIndices_no_dedup_witness :
    buildUnary exGrammar.productions (.term "a") =
      (exGrammar.productions.filter fun p =>
        decide (p.rhs = [.term "a"])).map Production.lhs ∧
    buildBinary exGrammar.productions (.nt "A", .nt "B") =
      (exGrammar.productions.filter fun p =>
        decide (p.rhs = [Symbol.nt "A", Symbol.nt "B"])).map Production.lhs ∧
    (buildUnary exGrammar.productions (.term "a")).length =
      exGrammar.productions.countP (fun p => decide (p.rhs = [.term "a"])) ∧
    (buildBinary exGrammar.productions (.nt "A", .nt "B")).length =
      exGrammar.productions.countP
        (fun p => decide (p.rhs = [Symbol.nt "A", Symbol.nt "B"])) :=
  buildIndices_no_dedup exGrammar.productions (.term "a") (.nt "A", .nt "B")
    (by decide)

/-- C10: whenever `recognise` returns normally with a derivable outcome,
the reported score is at least 1 — the full-span cell contains the start
symbol, so its label count is positive and the integer 0 (falsy in Python)
is never returned. -/
theorem recognise_score_positive (c : CKY) (fuel : Nat) (tokens : List Symbol)
    (r : RecResult) (h : recognise c fuel tokens = .ok r) :
    ∀ k, r = .derivable k → 1 ≤ k := by
  intro k hk
  subst hk
  cases hck : ckyChart c fuel tokens with
  | error e => simp only [recognise, hck] at h; cases h
  | ok ch =>
      simp only [recognise, hck, Nat.add_sub_cancel] at h
      by_cases h0 : tokens.length = 0
      · rw [if_pos h0] at h; cases h
      · rw [if_neg h0] at h
        by_cases hmem : c.grammar.start ∈ ch (0, tokens.length)
        · rw [if_pos hmem] at h
          have hlen : (ch (0, tokens.length)).length = k := by
            have := Except.ok.inj h
            exact RecResult.derivable.inj this
          have hpos : 0 < (ch (0, tokens.length)).length :=
            List.length_pos.mpr (List.ne_nil_of_mem hmem)
          omega
        · rw [if_neg hmem] at h
          exact absurd (Except.ok.inj h) (by simp)

/-- Witness for C10: the derivable run of `exCKY` on `[a, b]` scores 1. -/
theorem recognise_score_positive_witness :
    recognise exCKY 3 [.term "a", .term "b"] = .ok (.derivable 1) ∧ 1 ≤ 1 :=
  ⟨rfl, recognise_score_positive exCKY 3 [.term "a", .term "b"]
    (.derivable 1) rfl 1 rfl⟩

end Cky
